import Mathlib

/-!
Verification development for the go-ampio-server CAN gateway.

Shallow embedding of:
* `internal/can` — the CAN frame value and SocketCAN flag constants;
* `internal/cnl/codec.go` — the cannelloni codec (EncodeTo / Decode / DecodeN);
* the serial codec (`Codec.Encode`, `canUARTSend`, `Codec.DecodeStream`,
  `CompactBuffer`);
* `internal/hub/hub.go` — `Hub.Broadcast`;
* `internal/transport` AsyncTx — modelled as a labelled transition system.

Bytes are modelled as `Nat` values (< 256 in well-formed data); machine
arithmetic that wraps in Go is made explicit with `% 256` / `% 2^32`.
Malformed-frame counter increments (`metrics.IncMalformed`) are returned as
explicit counts.
-/

namespace Can

/-- SocketCAN flag constants from `internal/can`. -/
def CAN_EFF_FLAG : Nat := 0x80000000

def CAN_RTR_FLAG : Nat := 0x40000000

def CAN_ERR_FLAG : Nat := 0x20000000

def CAN_SFF_MASK : Nat := 0x7FF

def CAN_EFF_MASK : Nat := 0x1FFFFFFF

/-- CAN frame record from `internal/can`: a 32-bit identifier with flag bits,
a payload length, and the payload bytes (Go uses a fixed `[64]byte` region;
decoders here build the full 64-byte region, zero padded past `Len`). -/
structure Frame where
  CANID : Nat
  Len : Nat
  Data : List Nat
  deriving DecidableEq, Repr

/-- Observable content of a frame per the spec: identifier, length, and the
first `Len` payload bytes (the rest of the 64-byte region is padding). -/
def Frame.obs (f : Frame) : Nat × Nat × List Nat :=
  (f.CANID, f.Len, f.Data.take f.Len)

/-- Well-formedness of a frame in the claims' scope: identifier fits 32 bits,
length 0..8, and a full 64-byte data region of byte values. -/
def Frame.WF (f : Frame) : Prop :=
  f.CANID < 2 ^ 32 ∧ f.Len ≤ 8 ∧ f.Data.length = 64 ∧ ∀ b ∈ f.Data, b < 256

instance (f : Frame) : Decidable f.WF := by
  unfold Frame.WF; infer_instance

/-- Big-endian 4-byte encoding of a 32-bit value (`binary.BigEndian.PutUint32`). -/
def be32 (id : Nat) : List Nat :=
  [id / 2 ^ 24 % 256, id / 2 ^ 16 % 256, id / 2 ^ 8 % 256, id % 256]

/-- Big-endian 32-bit read of four bytes (`binary.BigEndian.Uint32`). -/
def rd32 (b0 b1 b2 b3 : Nat) : Nat :=
  b0 * 2 ^ 24 + b1 * 2 ^ 16 + b2 * 2 ^ 8 + b3

theorem be32_length (id : Nat) : (be32 id).length = 4 := rfl

theorem rd32_be32 (id : Nat) (h : id < 2 ^ 32) :
    rd32 (id / 2 ^ 24 % 256) (id / 2 ^ 16 % 256) (id / 2 ^ 8 % 256) (id % 256) = id := by
  unfold rd32
  omega

end Can

namespace Cnl

open Can

/-- Decode error kinds of `cnl.Codec.Decode`: `io.EOF` at a clean boundary,
`io.ErrUnexpectedEOF` from a short identifier read, `ErrInvalidLength`
(carrying the offending length) and `ErrTruncatedFrame`. -/
inductive Err where
  | eof
  | unexpectedEOF
  | invalidLength (n : Nat)
  | truncated
  deriving DecidableEq, Repr

/-- Result of a single-frame decode. -/
inductive DecRes where
  | ok (f : Frame)
  | err (e : Err)
  deriving DecidableEq, Repr

/-- `cnl.Codec.EncodeTo`, one frame: 4-byte big-endian CANID, 1-byte length
(`f.Len` as a byte), then the first `f.Len & 0x7F` payload bytes. -/
def encodeFrame (f : Frame) : List Nat :=
  be32 (f.CANID % 2 ^ 32) ++ [f.Len % 256] ++ f.Data.take (f.Len % 128)

/-- `cnl.Codec.Encode` / `EncodeTo` over a frame sequence: frames are written
contiguously with no extra framing. -/
def Encode (frames : List Frame) : List Nat :=
  (frames.map encodeFrame).flatten

/-- `cnl.Codec.Decode` on a byte list: returns the decode result, the
remaining input, and the number of `metrics.IncMalformed` calls made. -/
def Decode (bs : List Nat) : DecRes × List Nat × Nat :=
  if bs.length = 0 then (.err .eof, bs, 0)
  else if bs.length < 4 then (.err .unexpectedEOF, bs.drop 4, 0)
  else
    let id := rd32 (bs.getD 0 0) (bs.getD 1 0) (bs.getD 2 0) (bs.getD 3 0)
    let rest := bs.drop 4
    match rest with
    | [] => (.err .eof, rest, 0)
    | lb :: rest2 =>
      let ln := lb % 128
      if 8 < ln then (.err (.invalidLength ln), rest2, 1)
      else if rest2.length < ln then (.err .truncated, rest2.drop ln, 1)
      else
        (.ok ⟨id, ln, rest2.take ln ++ List.replicate (64 - ln) 0⟩, rest2.drop ln, 0)

/-- Whether a decode outcome is one of the malformed kinds that drive the
`metrics.IncMalformed` counter (`ErrInvalidLength` or `ErrTruncatedFrame`). -/
def isMalformed : DecRes → Bool
  | .err (.invalidLength _) => true
  | .err .truncated => true
  | _ => false

/-- Decoder's canonical image of a frame: same identifier and length, the
first `Len` data bytes kept, and the rest of the 64-byte region zeroed. -/
def canon (f : Frame) : Frame :=
  ⟨f.CANID, f.Len, f.Data.take f.Len ++ List.replicate (64 - f.Len) 0⟩

theorem Decode_consumes (bs : List Nat) (f : Frame) (rest : List Nat) (m : Nat)
    (h : Decode bs = (.ok f, rest, m)) : rest.length < bs.length := by
  unfold Decode at h
  split at h
  · simp at h
  · split at h
    · simp at h
    · rename_i h0 h4
      simp only at h
      split at h
      · simp at h
      · rename_i lb rest2 heq
        split at h
        · simp at h
        · split at h
          · simp at h
          · simp only [Prod.mk.injEq] at h
            have hr2 : (bs.drop 4).length = bs.length - 4 := List.length_drop 4 bs
            have : rest2.length + 1 = bs.length - 4 := by
              rw [← hr2, heq]; simp
            have hrest : rest = rest2.drop (lb % 128) := h.2.1.symm
            have : rest.length ≤ rest2.length := by
              rw [hrest, List.length_drop]; omega
            omega

/-- Fuel-driven loop of `cnl.Codec.DecodeN` with `max <= 0`: repeatedly decode
single frames, collecting them, until the terminal error (possibly the clean
`io.EOF`). Every successful `Decode` consumes at least five bytes, so fuel
exceeding the input length makes the fallback unreachable. -/
def DecodeNGo : Nat → List Nat → List Frame × Err
  | 0, _ => ([], .eof)
  | fuel + 1, bs =>
    match Decode bs with
    | (.err e, _, _) => ([], e)
    | (.ok f, rest, _) =>
      let r := DecodeNGo fuel rest
      (f :: r.1, r.2)

/-- `cnl.Codec.DecodeN` with `max <= 0`: returns the decoded frames in order
and the terminal error. -/
def DecodeN (bs : List Nat) : List Frame × Err :=
  DecodeNGo (bs.length + 1) bs

theorem DecodeNGo_fuel (f1 : Nat) : ∀ (f2 : Nat) (bs : List Nat),
    bs.length < f1 → bs.length < f2 → DecodeNGo f1 bs = DecodeNGo f2 bs := by
  induction f1 with
  | zero => intro f2 bs h1 _; omega
  | succ n ih =>
    intro f2 bs h1 h2
    match f2 with
    | 0 => omega
    | m + 1 =>
      simp only [DecodeNGo]
      match hd : Decode bs with
      | (.err e, rest, k) => simp
      | (.ok fr, rest, k) =>
        have hlt := Decode_consumes bs fr rest k hd
        simp only
        rw [ih m rest (by omega) (by omega)]

theorem DecodeN_err (bs : List Nat) (e : Err) (rest : List Nat) (k : Nat)
    (h : Decode bs = (.err e, rest, k)) : DecodeN bs = ([], e) := by
  unfold DecodeN DecodeNGo
  rw [h]

theorem DecodeN_ok (bs : List Nat) (f : Frame) (rest : List Nat) (k : Nat)
    (h : Decode bs = (.ok f, rest, k)) :
    DecodeN bs = (f :: (DecodeN rest).1, (DecodeN rest).2) := by
  have hlt := Decode_consumes bs f rest k h
  unfold DecodeN
  conv_lhs => rw [DecodeNGo]
  rw [h]
  simp only
  rw [DecodeNGo_fuel bs.length (rest.length + 1) rest (by omega) (by omega)]

end Cnl

namespace Serial

open Can

/-- Result of one serial `Codec.DecodeStream` call: the frames emitted via
`out`, the unread buffer contents on return, and the number of
`metrics.IncMalformed` calls made. -/
structure Out where
  frames : List Frame
  rest : List Nat
  mal : Nat
  deriving DecidableEq, Repr

/-- Index of the first occurrence of the two-byte preamble `0x2D 0xD4`
(`bytes.Index(data, header)`), `none` when absent. -/
def findPre : List Nat → Option Nat
  | [] => none
  | [_] => none
  | a :: b :: rest =>
    if a = 0x2D ∧ b = 0xD4 then some 0
    else (findPre (b :: rest)).map (· + 1)

/-- `canUARTSend`: wraps `data` into `[0x2D, 0xD4, len+1, data..., checksum]`
with `checksum = (len+1) + 0x2D + sum(data)` in wrapping byte arithmetic. -/
def canUARTSend (data : List Nat) : List Nat :=
  0x2D :: 0xD4 :: ((data.length + 1) % 256) :: data
    ++ [((data.length + 1) % 256 + 0x2D + data.sum) % 256]

/-- Serial `Codec.Encode`: the identifier is masked to 29 bits when the EFF
flag is set, the enveloped payload is `[INS=2, FLAGS=0x80+Len, ID_B3..ID_B0,
payload]`, and the envelope is wrapped by `canUARTSend`. -/
def Encode (f : Frame) : List Nat :=
  let can_id := if f.CANID &&& CAN_EFF_FLAG ≠ 0 then f.CANID &&& CAN_EFF_MASK else f.CANID
  canUARTSend (2 :: ((0x80 + f.Len) % 256) :: (be32 can_id ++ f.Data.take f.Len))

/-- The preamble occurs in `l` at index `k`. -/
def occAt (l : List Nat) (k : Nat) : Prop :=
  l.get? k = some 0x2D ∧ l.get? (k + 1) = some 0xD4

instance (l : List Nat) (k : Nat) : Decidable (occAt l k) := by
  unfold occAt; infer_instance

/-- Outcome of one iteration of the `DecodeStream` loop body: `ret` is one of
the `return nil` exits (carrying the buffer contents left behind), `emit` is
a `continue` (carrying the frame emitted, if any, the malformed increment,
and the remaining buffer contents). -/
inductive Step where
  | ret (residue : List Nat)
  | emit (fr : Option Frame) (mal : Nat) (next : List Nat)
  deriving DecidableEq, Repr

/-- One iteration of the serial `Codec.DecodeStream` loop body, in source
order: need preamble+len; align to the preamble (keeping the final byte when
the preamble is absent); need the length byte; check the declared length
range `[7,15]`; need the full declared frame; verify the checksum; parse and
emit the frame. -/
def loopStep (data : List Nat) : Step :=
  if data.length < 3 then .ret data
  else
    match findPre data with
    | none =>
      if 1 < data.length then .ret [data.getLastD 0] else .ret data
    | some i =>
      if i ≠ 0 then .emit none 0 (data.drop i)
      else if data.length < 4 then .ret data
      else
        let ln := data.getD 2 0
        if ln < 7 ∨ 15 < ln then .emit none 1 (data.drop 1)
        else
          let req := 3 + ln
          if data.length < req then .ret data
          else
            let sum := (0x2D + ln + ((data.drop 3).take (ln - 1)).sum) % 256
            if sum ≠ data.getD (req - 1) 0 then .emit none 1 (data.drop 1)
            else
              let id := rd32 (data.getD 3 0) (data.getD 4 0) (data.getD 5 0) (data.getD 6 0)
              let payload := (data.drop 7).take (ln - 5)
              let fr : Frame := ⟨id ||| CAN_EFF_FLAG, payload.length,
                payload ++ List.replicate (64 - payload.length) 0⟩
              .emit (some fr) 0 (data.drop req)

/-- Fuel-driven loop of the serial `Codec.DecodeStream`. One fuel unit per
loop iteration; every `continue` consumes at least one buffered byte, so any
fuel exceeding the buffer length makes the fallback unreachable. -/
def DecodeStreamGo : Nat → List Nat → Out
  | 0, data => ⟨[], data, 0⟩
  | fuel + 1, data =>
    match loopStep data with
    | .ret residue => ⟨[], residue, 0⟩
    | .emit fr m next =>
      let r := DecodeStreamGo fuel next
      ⟨fr.toList ++ r.frames, r.rest, m + r.mal⟩

/-- Serial `Codec.DecodeStream` on the unread buffer contents. -/
def DecodeStream (data : List Nat) : Out :=
  DecodeStreamGo (data.length + 1) data

/-- Repeatedly appending chunks to the decoder's accumulator, invoking
`DecodeStream` after each append, collecting all emitted frames. -/
def emitChunks : List Nat → List (List Nat) → List Frame
  | _, [] => []
  | st, c :: cs =>
    let r := DecodeStream (st ++ c)
    r.frames ++ emitChunks r.rest cs

/-- Accumulator buffer: underlying storage, read offset, and storage
capacity; the unread contents are `buf.drop off` (`bytes.Buffer`). -/
structure Buffer where
  buf : List Nat
  off : Nat
  capacity : Nat
  deriving DecidableEq, Repr

/-- Unread contents of the buffer (`b.Bytes()`). -/
def Buffer.bytes (b : Buffer) : List Nat := b.buf.drop b.off

/-- `serial.CompactBuffer`: when the unread contents reach 1 KiB and occupy
less than a quarter of the remaining capacity, clone them to a fresh buffer;
returns whether compaction occurred. -/
def CompactBuffer (b : Buffer) : Buffer × Bool :=
  let data := b.bytes
  if data.length < 1024 then (b, false)
  else if 0 < b.capacity - b.off ∧ data.length * 4 < b.capacity - b.off then
    (⟨data, 0, data.length⟩, true)
  else (b, false)

/-- Round-trip image of a frame through `Encode` then `DecodeStream`: the
decoder treats the two control-prefix bytes `[0x02, 0x80+Len]` and the two
high identifier bytes as the wire identifier, and the two low identifier
bytes as the start of the payload. -/
def RoundFrame (f : Frame) : Frame :=
  let can_id := if f.CANID &&& CAN_EFF_FLAG ≠ 0 then f.CANID &&& CAN_EFF_MASK else f.CANID
  let payload := can_id / 2 ^ 8 % 256 :: can_id % 256 :: f.Data.take f.Len
  ⟨rd32 2 ((0x80 + f.Len) % 256) (can_id / 2 ^ 24 % 256) (can_id / 2 ^ 16 % 256) ||| CAN_EFF_FLAG,
    payload.length, payload ++ List.replicate (64 - payload.length) 0⟩

end Serial

namespace Hub

open Can

/-- Hub client: bounded outbound queue (a buffered channel of capacity `cap`)
and the one-shot closure signal. -/
structure Client where
  out : List Frame
  cap : Nat
  closedSig : Bool
  deriving DecidableEq, Repr

/-- Backpressure policy (`PolicyDrop` / `PolicyKick`). -/
inductive Policy where
  | drop
  | kick
  deriving DecidableEq, Repr

/-- Hub state: registered clients plus the observable counters and gauges
touched by `Broadcast`. -/
structure HubSt where
  clients : List Client
  policy : Policy
  dropped : Nat
  kicked : Nat
  fanout : Nat
  active : Nat
  qdMax : Nat
  qdAvg : Nat
  deriving DecidableEq, Repr

/-- One client's treatment in the `Hub.Broadcast` send loop: a non-blocking
channel send succeeds exactly when the queue is below capacity; otherwise the
policy either leaves the client untouched (drop) or sets its closure signal
(kick, `c.Close()`). -/
def deliver (policy : Policy) (fr : Frame) (c : Client) : Client :=
  if c.out.length < c.cap then { c with out := c.out ++ [fr] }
  else match policy with
    | .drop => c
    | .kick => { c with closedSig := true }

/-- Number of clients whose outbound queue is full at the snapshot. -/
def fullCount (cs : List Client) : Nat :=
  (cs.filter fun c => c.cap ≤ c.out.length).length

/-- The per-client send loop of `Hub.Broadcast`: a non-blocking channel send
succeeds exactly when the queue is below capacity; otherwise the policy
either counts a drop or sets the closure signal and counts a kick. Returns
the updated clients and the (dropped, kicked) increments. -/
def deliverAll (policy : Policy) (fr : Frame) : List Client → List Client × Nat × Nat
  | [] => ([], 0, 0)
  | c :: cs =>
    let r := deliverAll policy fr cs
    if c.out.length < c.cap then ({ c with out := c.out ++ [fr] } :: r.1, r.2)
    else match policy with
      | .drop => (c :: r.1, r.2.1 + 1, r.2.2)
      | .kick => ({ c with closedSig := true } :: r.1, r.2.1, r.2.2 + 1)

/-- `Hub.Broadcast`: snapshot the registry, publish fanout and active-client
gauges, sample queue depths, then deliver to every client under the policy. -/
def Broadcast (s : HubSt) (fr : Frame) : HubSt :=
  let clients := s.clients
  let qmax := (clients.map fun c => c.out.length).foldr max 0
  let qsum := (clients.map fun c => c.out.length).sum
  let r := deliverAll s.policy fr clients
  { s with
    clients := r.1
    dropped := s.dropped + r.2.1
    kicked := s.kicked + r.2.2
    fanout := clients.length
    active := clients.length
    qdMax := if 0 < clients.length then qmax else s.qdMax
    qdAvg := if 0 < clients.length then qsum / clients.length else s.qdAvg }

end Hub

namespace Tx

open Can

/-- Return value of one `AsyncTx.SendFrame` call: frame enqueued, buffer full
(the `OnDrop` path), or the `ErrAsyncTxClosed` sentinel. -/
inductive TxRes where
  | okEnq
  | dropped
  | closedErr
  deriving DecidableEq, Repr

/-- Interleaved atomic steps of the `AsyncTx` system: producer calls to
`SendFrame`, the body of `Close` (swap the closed flag, cancel the context,
close the channel), one worker-loop iteration taking a queued frame, the
worker exiting through either `select` arm, and `Close`'s `wg.Wait` return. -/
inductive Act where
  | send (f : Frame)
  | closeBegin
  | workTake
  | workCtxDone
  | workChanClosed
  | closeFinish
  deriving DecidableEq, Repr

/-- AsyncTx state: the buffered channel contents, the `closed` atomic flag,
context cancellation, channel closure, worker liveness, whether `Close` has
returned, hook counters, and the log of `SendFrame` results. -/
structure TxSt where
  queue : List Frame
  cap : Nat
  closedFlag : Bool
  cancelled : Bool
  chClosed : Bool
  workerExited : Bool
  closeReturned : Bool
  devWrites : Nat
  afterCount : Nat
  errCount : Nat
  results : List TxRes
  deriving DecidableEq, Repr

/-- Initial state after `NewAsyncTx` with channel capacity `cap`. -/
def initTx (cap : Nat) : TxSt :=
  ⟨[], cap, false, false, false, false, false, 0, 0, 0, []⟩

/-- One atomic step; `none` when the action's precondition does not hold
(the corresponding goroutine could not take that step). `dev` is the device
send function's success predicate. -/
def step (dev : Frame → Bool) (s : TxSt) : Act → Option TxSt
  | .send f =>
    if s.closedFlag then some { s with results := s.results ++ [.closedErr] }
    else if s.queue.length < s.cap then
      some { s with queue := s.queue ++ [f], results := s.results ++ [.okEnq] }
    else some { s with results := s.results ++ [.dropped] }
  | .closeBegin =>
    if s.closedFlag then some s
    else some { s with closedFlag := true, cancelled := true, chClosed := true }
  | .workTake =>
    match s.queue with
    | [] => none
    | f :: rest =>
      if s.workerExited then none
      else if dev f then
        some { s with queue := rest, devWrites := s.devWrites + 1,
                      afterCount := s.afterCount + 1 }
      else
        some { s with queue := rest, devWrites := s.devWrites + 1,
                      errCount := s.errCount + 1 }
  | .workCtxDone =>
    if s.cancelled ∧ ¬s.workerExited then some { s with workerExited := true }
    else none
  | .workChanClosed =>
    if s.chClosed ∧ s.queue = [] ∧ ¬s.workerExited then
      some { s with workerExited := true }
    else none
  | .closeFinish =>
    if s.closeReturned then some s
    else if s.closedFlag ∧ s.chClosed ∧ s.workerExited then
      some { s with closeReturned := true }
    else none

/-- Run a sequence of steps; `none` if any step was not enabled. -/
def runTx (dev : Frame → Bool) : TxSt → List Act → Option TxSt
  | s, [] => some s
  | s, a :: acts =>
    match step dev s a with
    | none => none
    | some s2 => runTx dev s2 acts

/-- Number of `SendFrame` calls that successfully enqueued a frame. -/
def countOk (rs : List TxRes) : Nat :=
  (rs.filter fun r => r = .okEnq).length

/-- Execution invariant of the AsyncTx transition system: hook counts match
device writes, device writes plus buffered frames match successful enqueues,
an always-succeeding device never drives the error hook, and `Close` only
returns with the flags set and the worker gone. -/
def Inv (dev : Frame → Bool) (s : TxSt) : Prop :=
  s.afterCount + s.errCount = s.devWrites ∧
  s.devWrites + s.queue.length = countOk s.results ∧
  ((∀ fr, dev fr = true) → s.errCount = 0) ∧
  (s.closeReturned = true → s.workerExited = true ∧ s.closedFlag = true)

end Tx

/-! ## Cannelloni codec lemmas -/

namespace Cnl

open Can

theorem Decode_encodeFrame (f : Frame) (rest : List Nat) (h1 : f.CANID < 2 ^ 32)
    (h2 : f.Len ≤ 8) (h3 : f.Len ≤ f.Data.length) :
    Decode (encodeFrame f ++ rest) = (.ok (canon f), rest, 0) := by
  have hl256 : f.Len % 256 = f.Len := Nat.mod_eq_of_lt (by omega)
  have hl128 : f.Len % 128 = f.Len := Nat.mod_eq_of_lt (by omega)
  have hid : f.CANID % 2 ^ 32 = f.CANID := Nat.mod_eq_of_lt h1
  have hp : (f.Data.take f.Len).length = f.Len := by
    rw [List.length_take]; omega
  unfold encodeFrame be32
  rw [hl128, hl256, hid]
  have hsh : ([f.CANID / 2 ^ 24 % 256, f.CANID / 2 ^ 16 % 256, f.CANID / 2 ^ 8 % 256,
      f.CANID % 256] ++ [f.Len] ++ f.Data.take f.Len) ++ rest
      = f.CANID / 2 ^ 24 % 256 :: f.CANID / 2 ^ 16 % 256 :: f.CANID / 2 ^ 8 % 256 ::
        f.CANID % 256 :: f.Len :: (f.Data.take f.Len ++ rest) := by
    simp
  rw [hsh]
  unfold Decode
  have hlen : (f.CANID / 2 ^ 24 % 256 :: f.CANID / 2 ^ 16 % 256 :: f.CANID / 2 ^ 8 % 256 ::
      f.CANID % 256 :: f.Len :: (f.Data.take f.Len ++ rest)).length
      = 5 + (f.Len + rest.length) := by
    simp [hp]; omega
  rw [if_neg (by rw [hlen]; omega), if_neg (by rw [hlen]; omega)]
  simp only [List.getD, List.get?, List.drop, Option.getD_some]
  simp only [hl128]
  rw [if_neg (by omega)]
  have hlen2 : (f.Data.take f.Len ++ rest).length = f.Len + rest.length := by
    simp [hp]
  rw [if_neg (by rw [hlen2]; omega)]
  have htake : (f.Data.take f.Len ++ rest).take f.Len = f.Data.take f.Len :=
    List.take_left' hp
  have hdrop : (f.Data.take f.Len ++ rest).drop f.Len = rest :=
    List.drop_left' hp
  rw [htake, hdrop]
  unfold canon
  rw [rd32_be32 f.CANID h1]

theorem DecodeN_Encode (fs : List Frame)
    (h : ∀ f ∈ fs, f.CANID < 2 ^ 32 ∧ f.Len ≤ 8 ∧ f.Len ≤ f.Data.length) :
    DecodeN (Encode fs) = (fs.map canon, .eof) := by
  induction fs with
  | nil =>
    have : Decode [] = (.err .eof, [], 0) := rfl
    rw [show Encode [] = [] from rfl, DecodeN_err [] .eof [] 0 this]
    rfl
  | cons f fs ih =>
    obtain ⟨h1, h2, h3⟩ := h f (by simp)
    have henc : Encode (f :: fs) = encodeFrame f ++ Encode fs := by
      simp [Encode]
    rw [henc, DecodeN_ok _ (canon f) (Encode fs) 0
      (Decode_encodeFrame f (Encode fs) h1 h2 h3)]
    rw [ih (fun g hg => h g (by simp [hg]))]
    simp

theorem canon_obs (f : Frame) (h3 : f.Len ≤ f.Data.length) :
    (canon f).obs = f.obs := by
  unfold canon Frame.obs
  have hp : (f.Data.take f.Len).length = f.Len := by
    rw [List.length_take]; omega
  simp only
  rw [List.take_left' hp]

theorem Decode_mal (bs : List Nat) :
    (Decode bs).2.2 = if isMalformed (Decode bs).1 then 1 else 0 := by
  unfold Decode
  split
  · rfl
  · split
    · rfl
    · cases h : List.drop 4 bs with
      | nil => simp only [h]; rfl
      | cons lb rest2 =>
        simp only [h]
        split
        · simp [isMalformed]
        · split
          · simp [isMalformed]
          · simp [isMalformed]

end Cnl

/-! ## Claim theorems: cannelloni codec -/

/-- C2. Cannelloni codec round-trip: for every sequence of CAN frames with
identifiers ≤ 29 bits and payload lengths 0–8, decoding the bytes produced by
`Encode` with repeated single-frame `Decode` (`DecodeN` without a maximum)
yields exactly the original frames — same identifier, same length, same
first-`Len` payload bytes — and then signals the clean end-of-stream
(`io.EOF`). -/
theorem C2_cannelloni_roundtrip (fs : List Can.Frame)
    (h : ∀ f ∈ fs, f.CANID < 2 ^ 29 ∧ f.Len ≤ 8 ∧ f.Data.length = 64) :
    (Cnl.DecodeN (Cnl.Encode fs)).1.map Can.Frame.obs = fs.map Can.Frame.obs ∧
    (Cnl.DecodeN (Cnl.Encode fs)).2 = Cnl.Err.eof := by
  have h32 : ∀ f ∈ fs, f.CANID < 2 ^ 32 ∧ f.Len ≤ 8 ∧ f.Len ≤ f.Data.length := by
    intro f hf
    obtain ⟨h1, h2, h3⟩ := h f hf
    exact ⟨by omega, h2, by omega⟩
  rw [Cnl.DecodeN_Encode fs h32]
  refine ⟨?_, rfl⟩
  simp only [List.map_map]
  refine List.map_congr_left ?_
  intro f hf
  obtain ⟨_, h2, h3⟩ := h32 f hf
  exact Cnl.canon_obs f h3

/-- Witness for C2 at a concrete frame list (spec scenario S1's frame). -/
theorem C2_cannelloni_roundtrip_witness :
    (∀ f ∈ [(⟨0x123, 3, [1, 2, 3] ++ List.replicate 61 0⟩ : Can.Frame)],
      f.CANID < 2 ^ 29 ∧ f.Len ≤ 8 ∧ f.Data.length = 64) ∧
    (Cnl.DecodeN (Cnl.Encode [(⟨0x123, 3, [1, 2, 3] ++ List.replicate 61 0⟩ : Can.Frame)])).1.map
        Can.Frame.obs
      = [(⟨0x123, 3, [1, 2, 3] ++ List.replicate 61 0⟩ : Can.Frame)].map Can.Frame.obs ∧
    (Cnl.DecodeN (Cnl.Encode [(⟨0x123, 3, [1, 2, 3] ++ List.replicate 61 0⟩ : Can.Frame)])).2
      = Cnl.Err.eof := by
  refine ⟨by decide, ?_⟩
  exact C2_cannelloni_roundtrip _ (by decide)

/-- C5. Cannelloni single-frame decode error discipline: the masked length
`9 > 8` on input `00 00 00 01 09` fails with `ErrInvalidLength` (scenario S2);
a payload shorter than declared on input `00 00 00 02 05 01 02 03` fails with
`ErrTruncatedFrame` (scenario S3); each increments the malformed counter by
exactly one, and on every input the malformed increment is exactly one on
those two outcomes and zero otherwise. -/
theorem C5_cannelloni_error_discipline :
    Cnl.Decode [0, 0, 0, 1, 9] = (.err (.invalidLength 9), [], 1) ∧
    Cnl.Decode [0, 0, 0, 2, 5, 1, 2, 3] = (.err .truncated, [], 1) ∧
    ∀ bs : List Nat,
      (Cnl.Decode bs).2.2 = if Cnl.isMalformed (Cnl.Decode bs).1 then 1 else 0 :=
  ⟨by decide, by decide, Cnl.Decode_mal⟩

/-- C10. Cannelloni decode end-of-stream edge: an input ending exactly at a
frame boundary decodes to the clean end-of-stream `io.EOF`; an input ending
after 1–3 bytes of the 4-byte identifier fails with `io.ErrUnexpectedEOF`,
which is neither the `InvalidLength` nor the `Truncated` kind; in both cases
the malformed counter is not incremented. -/
theorem C10_cannelloni_eof_edge :
    Cnl.Decode [] = (.err .eof, [], 0) ∧
    Cnl.isMalformed (.err .eof) = false ∧
    Cnl.isMalformed (.err .unexpectedEOF) = false ∧
    ∀ bs : List Nat, bs ≠ [] → bs.length < 4 →
      Cnl.Decode bs = (.err .unexpectedEOF, [], 0) := by
  refine ⟨by decide, by decide, by decide, ?_⟩
  intro bs hne hlt
  unfold Cnl.Decode
  rw [if_neg (by simpa using hne), if_pos hlt]
  rw [List.drop_eq_nil_of_le (by omega)]

/-- Witness for C10 at the one-byte input `[0]`. -/
theorem C10_cannelloni_eof_edge_witness :
    ([0] : List Nat) ≠ [] ∧ ([0] : List Nat).length < 4 ∧
    Cnl.Decode [0] = (.err .unexpectedEOF, [], 0) :=
  ⟨by decide, by decide, (C10_cannelloni_eof_edge.2.2.2 [0] (by decide) (by decide))⟩

/-! ## Serial codec: preamble search characterization -/

namespace Serial

open Can

theorem occAt_lt_length {l : List Nat} {k : Nat} (h : occAt l k) : k + 1 < l.length := by
  obtain ⟨-, h2⟩ := h
  rw [List.get?_eq_some] at h2
  exact h2.1

theorem occAt_cons_succ (a : Nat) (l : List Nat) (k : Nat) :
    occAt (a :: l) (k + 1) ↔ occAt l k := by
  unfold occAt
  simp [List.get?]

theorem occAt_zero_cons (a b : Nat) (l : List Nat) :
    occAt (a :: b :: l) 0 ↔ a = 0x2D ∧ b = 0xD4 := by
  unfold occAt
  simp [List.get?]

theorem occAt_append_left {b e : List Nat} {k : Nat} (h : k + 1 < b.length) :
    occAt (b ++ e) k ↔ occAt b k := by
  unfold occAt
  rw [List.get?_append (by omega), List.get?_append h]

theorem occAt_append_right {b e : List Nat} (k : Nat) :
    occAt (b ++ e) (b.length + k) ↔ occAt e k := by
  unfold occAt
  rw [List.get?_append_right (by omega), List.get?_append_right (by omega)]
  have h1 : b.length + k - b.length = k := by omega
  have h2 : b.length + k + 1 - b.length = k + 1 := by omega
  rw [h1, h2]

theorem findPre_none_iff : ∀ l : List Nat, findPre l = none ↔ ∀ k, ¬occAt l k := by
  intro l
  induction l with
  | nil =>
    simp only [findPre, true_iff]
    intro k h
    exact absurd (occAt_lt_length h) (by simp)
  | cons a t ih =>
    cases t with
    | nil =>
      simp only [findPre, true_iff]
      intro k h
      have := occAt_lt_length h
      simp at this
    | cons b t2 =>
      by_cases hab : a = 0x2D ∧ b = 0xD4
      · constructor
        · intro h
          simp [findPre, hab] at h
        · intro h
          exact absurd ((occAt_zero_cons a b t2).mpr hab) (h 0)
      · have hfp : findPre (a :: b :: t2) = (findPre (b :: t2)).map (· + 1) := by
          simp [findPre, hab]
        rw [hfp]
        constructor
        · intro h k
          cases k with
          | zero => rw [occAt_zero_cons]; exact hab
          | succ k2 =>
            rw [occAt_cons_succ]
            exact (ih.mp (by simpa using h)) k2
        · intro h
          have : findPre (b :: t2) = none :=
            ih.mpr fun k hk => h (k + 1) ((occAt_cons_succ a (b :: t2) k).mpr hk)
          simp [this]

theorem findPre_some_iff : ∀ (l : List Nat) (i : Nat),
    findPre l = some i ↔ occAt l i ∧ ∀ k < i, ¬occAt l k := by
  intro l
  induction l with
  | nil =>
    intro i
    refine ⟨fun h => by simp [findPre] at h, fun h => absurd (occAt_lt_length h.1) (by simp)⟩
  | cons a t ih =>
    cases t with
    | nil =>
      intro i
      refine ⟨fun h => by simp [findPre] at h, fun h => ?_⟩
      have := occAt_lt_length h.1
      simp at this
    | cons b t2 =>
      intro i
      by_cases hab : a = 0x2D ∧ b = 0xD4
      · rw [show findPre (a :: b :: t2) = some 0 by simp [findPre, hab]]
        cases i with
        | zero =>
          simp only [Option.some.injEq, true_iff]
          exact ⟨(occAt_zero_cons a b t2).mpr hab, by omega⟩
        | succ i2 =>
          constructor
          · intro h; simp at h
          · intro h
            exact absurd ((occAt_zero_cons a b t2).mpr hab) (h.2 0 (by omega))
      · have hfp : findPre (a :: b :: t2) = (findPre (b :: t2)).map (· + 1) := by
          simp [findPre, hab]
        rw [hfp]
        cases i with
        | zero =>
          constructor
          · intro h; simp at h
          · intro h
            exact absurd ((occAt_zero_cons a b t2).mp h.1) hab
        | succ i2 =>
          constructor
          · intro h
            have h2 : findPre (b :: t2) = some i2 := by
              cases hfp2 : findPre (b :: t2) with
              | none => simp [hfp2] at h
              | some j => simp [hfp2] at h; simp [h]
            obtain ⟨ho, hm⟩ := (ih i2).mp h2
            refine ⟨(occAt_cons_succ a (b :: t2) i2).mpr ho, ?_⟩
            intro k hk
            cases k with
            | zero => rw [occAt_zero_cons]; exact hab
            | succ k2 =>
              rw [occAt_cons_succ]
              exact hm k2 (by omega)
          · intro h
            have ho := (occAt_cons_succ a (b :: t2) i2).mp h.1
            have hm : ∀ k < i2, ¬occAt (b :: t2) k := by
              intro k hk
              exact fun hc => h.2 (k + 1) (by omega) ((occAt_cons_succ a (b :: t2) k).mpr hc)
            rw [(ih i2).mpr ⟨ho, hm⟩]
            rfl

theorem findPre_append_some {b e : List Nat} {i : Nat} (h : findPre b = some i) :
    findPre (b ++ e) = some i := by
  rw [findPre_some_iff] at h ⊢
  obtain ⟨hocc, hmin⟩ := h
  have hlt := occAt_lt_length hocc
  refine ⟨(occAt_append_left hlt).mpr hocc, ?_⟩
  intro k hk
  rw [occAt_append_left (by omega)]
  exact hmin k hk

/-! ### Loop-body branch lemmas -/

theorem loopStep_short {data : List Nat} (h : data.length < 3) :
    loopStep data = .ret data := by
  unfold loopStep
  rw [if_pos h]

theorem loopStep_nopre {data : List Nat} (h3 : ¬data.length < 3)
    (h : findPre data = none) : loopStep data = .ret [data.getLastD 0] := by
  unfold loopStep
  rw [if_neg h3, h]
  simp only
  rw [if_pos (by omega)]

theorem loopStep_skip {data : List Nat} {i : Nat} (h3 : ¬data.length < 3)
    (h : findPre data = some i) (hi : i ≠ 0) :
    loopStep data = .emit none 0 (data.drop i) := by
  unfold loopStep
  rw [if_neg h3, h]
  simp only
  rw [if_pos hi]

theorem loopStep_need4 {data : List Nat} (h3 : ¬data.length < 3)
    (h : findPre data = some 0) (h4 : data.length < 4) :
    loopStep data = .ret data := by
  unfold loopStep
  rw [if_neg h3, h]
  simp only
  rw [if_neg (by omega), if_pos h4]

theorem loopStep_badlen {data : List Nat} (h3 : ¬data.length < 3)
    (h : findPre data = some 0) (h4 : ¬data.length < 4)
    (hln : data.getD 2 0 < 7 ∨ 15 < data.getD 2 0) :
    loopStep data = .emit none 1 (data.drop 1) := by
  unfold loopStep
  rw [if_neg h3, h]
  simp only
  rw [if_neg (by omega), if_neg h4, if_pos hln]

theorem loopStep_needreq {data : List Nat} (h3 : ¬data.length < 3)
    (h : findPre data = some 0) (h4 : ¬data.length < 4)
    (hln : ¬(data.getD 2 0 < 7 ∨ 15 < data.getD 2 0))
    (hreq : data.length < 3 + data.getD 2 0) :
    loopStep data = .ret data := by
  unfold loopStep
  rw [if_neg h3, h]
  simp only
  rw [if_neg (by omega), if_neg h4, if_neg hln, if_pos hreq]

theorem loopStep_badsum {data : List Nat} (h3 : ¬data.length < 3)
    (h : findPre data = some 0) (h4 : ¬data.length < 4)
    (hln : ¬(data.getD 2 0 < 7 ∨ 15 < data.getD 2 0))
    (hreq : ¬data.length < 3 + data.getD 2 0)
    (hcs : (0x2D + data.getD 2 0 + ((data.drop 3).take (data.getD 2 0 - 1)).sum) % 256
      ≠ data.getD (3 + data.getD 2 0 - 1) 0) :
    loopStep data = .emit none 1 (data.drop 1) := by
  unfold loopStep
  rw [if_neg h3, h]
  simp only
  rw [if_neg (by omega), if_neg h4, if_neg hln, if_neg hreq, if_pos hcs]

theorem loopStep_frame {data : List Nat} (h3 : ¬data.length < 3)
    (h : findPre data = some 0) (h4 : ¬data.length < 4)
    (hln : ¬(data.getD 2 0 < 7 ∨ 15 < data.getD 2 0))
    (hreq : ¬data.length < 3 + data.getD 2 0)
    (hcs : ¬(0x2D + data.getD 2 0 + ((data.drop 3).take (data.getD 2 0 - 1)).sum) % 256
      ≠ data.getD (3 + data.getD 2 0 - 1) 0) :
    loopStep data = .emit (some
      ⟨rd32 (data.getD 3 0) (data.getD 4 0) (data.getD 5 0) (data.getD 6 0) ||| CAN_EFF_FLAG,
        ((data.drop 7).take (data.getD 2 0 - 5)).length,
        (data.drop 7).take (data.getD 2 0 - 5)
          ++ List.replicate (64 - ((data.drop 7).take (data.getD 2 0 - 5)).length) 0⟩)
      0 (data.drop (3 + data.getD 2 0)) := by
  unfold loopStep
  rw [if_neg h3, h]
  simp only
  rw [if_neg (by omega), if_neg h4, if_neg hln, if_neg hreq, if_neg hcs]

theorem loopStep_emit_lt {data : List Nat} {fr : Option Frame} {m : Nat} {next : List Nat}
    (h : loopStep data = .emit fr m next) : next.length < data.length := by
  unfold loopStep at h
  split at h
  · cases h
  · rename_i h3
    split at h
    · split at h <;> cases h
    · rename_i i hfp
      split at h
      · rename_i hi
        obtain ⟨-, -, hn⟩ := Step.emit.inj h
        rw [← hn, List.length_drop]
        omega
      · split at h
        · cases h
        · simp only [] at h
          split at h
          · obtain ⟨-, -, hn⟩ := Step.emit.inj h
            rw [← hn, List.length_drop]
            omega
          · split at h
            · cases h
            · split at h
              · obtain ⟨-, -, hn⟩ := Step.emit.inj h
                rw [← hn, List.length_drop]
                omega
              · obtain ⟨-, -, hn⟩ := Step.emit.inj h
                rw [← hn, List.length_drop]
                omega

theorem DecodeStreamGo_fuel (f1 : Nat) : ∀ (f2 : Nat) (data : List Nat),
    data.length < f1 → data.length < f2 → DecodeStreamGo f1 data = DecodeStreamGo f2 data := by
  induction f1 with
  | zero => intro f2 data h1 _; omega
  | succ n ih =>
    intro f2 data h1 h2
    match f2 with
    | 0 => omega
    | m + 1 =>
      simp only [DecodeStreamGo]
      match hs : loopStep data with
      | .ret r => simp
      | .emit fr k next =>
        have hlt := loopStep_emit_lt hs
        simp only
        rw [ih m next (by omega) (by omega)]

theorem DecodeStream_ret {data r : List Nat} (h : loopStep data = .ret r) :
    DecodeStream data = ⟨[], r, 0⟩ := by
  unfold DecodeStream DecodeStreamGo
  rw [h]

theorem DecodeStream_emit {data : List Nat} {fr : Option Frame} {m : Nat} {next : List Nat}
    (h : loopStep data = .emit fr m next) :
    DecodeStream data = ⟨fr.toList ++ (DecodeStream next).frames,
      (DecodeStream next).rest, m + (DecodeStream next).mal⟩ := by
  have hlt := loopStep_emit_lt h
  unfold DecodeStream
  conv_lhs => rw [DecodeStreamGo]
  rw [h]
  simp only
  rw [DecodeStreamGo_fuel data.length (next.length + 1) next (by omega) (by omega)]

theorem getD_append_left {l l' : List Nat} {n : Nat} (h : n < l.length) (d : Nat) :
    (l ++ l').getD n d = l.getD n d := by
  unfold List.getD
  rw [List.get?_append h]

/-- Discarding a prefix in which no preamble occurrence starts does not
change the frames the stream decoder emits. -/
theorem frames_junk (junk r : List Nat)
    (h : ∀ k < junk.length, ¬occAt (junk ++ r) k) :
    (DecodeStream (junk ++ r)).frames = (DecodeStream r).frames := by
  by_cases hj0 : junk = []
  · rw [hj0]; rfl
  have hjlen : 0 < junk.length := List.length_pos.mpr hj0
  by_cases hlen : (junk ++ r).length < 3
  · have hrlen : r.length < 3 := by
      rw [List.length_append] at hlen; omega
    rw [DecodeStream_ret (loopStep_short hlen), DecodeStream_ret (loopStep_short hrlen)]
  · cases hfp : findPre (junk ++ r) with
    | none =>
      rw [DecodeStream_ret (loopStep_nopre hlen hfp)]
      have hnone := (findPre_none_iff _).mp hfp
      have hr : findPre r = none :=
        (findPre_none_iff r).mpr fun k hk =>
          hnone (junk.length + k) ((occAt_append_right k).mpr hk)
      by_cases hr3 : r.length < 3
      · rw [DecodeStream_ret (loopStep_short hr3)]
      · rw [DecodeStream_ret (loopStep_nopre hr3 hr)]
    | some i =>
      obtain ⟨hocc, hmin⟩ := (findPre_some_iff _ _).mp hfp
      have hige : junk.length ≤ i := by
        by_contra hc
        exact h i (by omega) hocc
      have hij : i = junk.length + (i - junk.length) := by omega
      have hoccr : occAt r (i - junk.length) := by
        rw [hij, occAt_append_right] at hocc
        exact hocc
      have hminr : ∀ k < i - junk.length, ¬occAt r k := fun k hk hc =>
        hmin (junk.length + k) (by omega) ((occAt_append_right k).mpr hc)
      have hfpr : findPre r = some (i - junk.length) :=
        (findPre_some_iff _ _).mpr ⟨hoccr, hminr⟩
      have hi0 : i ≠ 0 := by omega
      have hdropi : (junk ++ r).drop i = r.drop (i - junk.length) := by
        conv_lhs => rw [hij]
        rw [List.drop_append]
      rw [DecodeStream_emit (loopStep_skip hlen hfp hi0)]
      simp only [Option.toList, List.nil_append]
      rw [hdropi]
      by_cases hj2 : i - junk.length = 0
      · rw [hj2, List.drop_zero]
      · have hr3 : ¬r.length < 3 := by
          have := occAt_lt_length hoccr
          omega
        rw [DecodeStream_emit (loopStep_skip hr3 hfpr hj2)]
        simp

/-- Incremental decoding: processing `data ++ e` emits the frames of `data`
followed by the frames obtained by processing `e` appended to the residue
left by `data`. -/
theorem frames_append_bound (n : Nat) : ∀ data e : List Nat, data.length ≤ n →
    (DecodeStream (data ++ e)).frames
      = (DecodeStream data).frames ++ (DecodeStream ((DecodeStream data).rest ++ e)).frames := by
  induction n with
  | zero =>
    intro data e hn
    have hd : data = [] := List.length_eq_zero.mp (by omega)
    subst hd
    have h0 : DecodeStream [] = ⟨[], [], 0⟩ := rfl
    rw [h0]
    simp
  | succ n ih =>
    intro data e hn
    by_cases hlen : data.length < 3
    · rw [DecodeStream_ret (loopStep_short hlen)]
      simp
    · have hlen_e : ¬(data ++ e).length < 3 := by
        rw [List.length_append]; omega
      have hne : data ≠ [] := by
        intro hc; rw [hc] at hlen; simp at hlen
      cases hfp : findPre data with
      | none =>
        rw [DecodeStream_ret (loopStep_nopre hlen hfp)]
        simp only [List.nil_append]
        have hgl : data.getLastD 0 = data.getLast hne := by
          rw [List.getLastD_eq_getLast?, List.getLast?_eq_getLast _ hne]
          rfl
        have hsplit : data ++ e = data.dropLast ++ ([data.getLastD 0] ++ e) := by
          rw [hgl, ← List.append_assoc, List.dropLast_append_getLast hne]
        rw [hsplit]
        refine frames_junk data.dropLast ([data.getLastD 0] ++ e) ?_
        intro k hk
        rw [List.length_dropLast] at hk
        rw [← hsplit, occAt_append_left (by omega)]
        exact (findPre_none_iff data).mp hfp k
      | some i =>
        have hocc := ((findPre_some_iff data i).mp hfp).1
        have hilt := occAt_lt_length hocc
        have hfpe : findPre (data ++ e) = some i := findPre_append_some hfp
        by_cases hi : i = 0
        · subst hi
          by_cases h4 : data.length < 4
          · rw [DecodeStream_ret (loopStep_need4 hlen hfp h4)]
            simp
          · have h4e : ¬(data ++ e).length < 4 := by
              rw [List.length_append]; omega
            have hg2 : (data ++ e).getD 2 0 = data.getD 2 0 :=
              getD_append_left (by omega) 0
            by_cases hln : data.getD 2 0 < 7 ∨ 15 < data.getD 2 0
            · rw [DecodeStream_emit (loopStep_badlen hlen hfp h4 hln)]
              rw [DecodeStream_emit (loopStep_badlen hlen_e hfpe h4e (by rw [hg2]; exact hln))]
              have hd1 : (data ++ e).drop 1 = data.drop 1 ++ e :=
                List.drop_append_of_le_length (by omega)
              rw [hd1]
              rw [ih (data.drop 1) e (by rw [List.length_drop]; omega)]
              simp
            · by_cases hreq : data.length < 3 + data.getD 2 0
              · rw [DecodeStream_ret (loopStep_needreq hlen hfp h4 hln hreq)]
                simp
              · have hln7 : 7 ≤ data.getD 2 0 := by omega
                have hsumeq : ((data ++ e).drop 3).take (data.getD 2 0 - 1)
                    = (data.drop 3).take (data.getD 2 0 - 1) := by
                  rw [List.drop_append_of_le_length (by omega)]
                  exact List.take_append_of_le_length (by rw [List.length_drop]; omega)
                have hcseq : (data ++ e).getD (3 + data.getD 2 0 - 1) 0
                    = data.getD (3 + data.getD 2 0 - 1) 0 :=
                  getD_append_left (by omega) 0
                by_cases hcs : (0x2D + data.getD 2 0
                    + ((data.drop 3).take (data.getD 2 0 - 1)).sum) % 256
                    ≠ data.getD (3 + data.getD 2 0 - 1) 0
                · rw [DecodeStream_emit (loopStep_badsum hlen hfp h4 hln hreq hcs)]
                  rw [DecodeStream_emit (loopStep_badsum hlen_e hfpe h4e
                    (by rw [hg2]; exact hln) (by rw [List.length_append, hg2]; omega)
                    (by rw [hg2, hsumeq, hcseq]; exact hcs))]
                  have hd1 : (data ++ e).drop 1 = data.drop 1 ++ e :=
                    List.drop_append_of_le_length (by omega)
                  rw [hd1]
                  rw [ih (data.drop 1) e (by rw [List.length_drop]; omega)]
                  simp
                · rw [DecodeStream_emit (loopStep_frame hlen hfp h4 hln hreq hcs)]
                  rw [DecodeStream_emit (loopStep_frame hlen_e hfpe h4e
                    (by rw [hg2]; exact hln) (by rw [List.length_append, hg2]; omega)
                    (by rw [hg2, hsumeq, hcseq]; exact hcs))]
                  have hg3 : (data ++ e).getD 3 0 = data.getD 3 0 :=
                    getD_append_left (by omega) 0
                  have hg4 : (data ++ e).getD 4 0 = data.getD 4 0 :=
                    getD_append_left (by omega) 0
                  have hg5 : (data ++ e).getD 5 0 = data.getD 5 0 :=
                    getD_append_left (by omega) 0
                  have hg6 : (data ++ e).getD 6 0 = data.getD 6 0 :=
                    getD_append_left (by omega) 0
                  have hpay : ((data ++ e).drop 7).take (data.getD 2 0 - 5)
                      = (data.drop 7).take (data.getD 2 0 - 5) := by
                    rw [List.drop_append_of_le_length (by omega)]
                    exact List.take_append_of_le_length (by rw [List.length_drop]; omega)
                  have hdreq : (data ++ e).drop (3 + data.getD 2 0)
                      = data.drop (3 + data.getD 2 0) ++ e :=
                    List.drop_append_of_le_length (by omega)
                  rw [hg2, hg3, hg4, hg5, hg6, hpay, hdreq]
                  rw [ih (data.drop (3 + data.getD 2 0)) e (by rw [List.length_drop]; omega)]
                  simp
        · rw [DecodeStream_emit (loopStep_skip hlen hfp hi)]
          rw [DecodeStream_emit (loopStep_skip hlen_e hfpe hi)]
          have hdi : (data ++ e).drop i = data.drop i ++ e :=
            List.drop_append_of_le_length (by omega)
          rw [hdi]
          rw [ih (data.drop i) e (by rw [List.length_drop]; omega)]
          simp

/-- Incremental decoding, unbounded form. -/
theorem frames_append (data e : List Nat) :
    (DecodeStream (data ++ e)).frames
      = (DecodeStream data).frames ++ (DecodeStream ((DecodeStream data).rest ++ e)).frames :=
  frames_append_bound data.length data e (le_refl _)

/-- Chunked feeding with accumulator `st` emits, after the frames of the
already-processed stream `p`, exactly the frames of the whole stream —
provided `st` is emission-equivalent to the residue left by `p`. -/
theorem emitChunks_spec : ∀ (cs : List (List Nat)) (st p : List Nat),
    (∀ e, (DecodeStream (st ++ e)).frames
      = (DecodeStream ((DecodeStream p).rest ++ e)).frames) →
    (DecodeStream p).frames ++ emitChunks st cs
      = (DecodeStream (p ++ cs.flatten)).frames := by
  intro cs
  induction cs with
  | nil =>
    intro st p h
    simp [emitChunks]
  | cons c cs ih =>
    intro st p h
    have hinv : ∀ e, (DecodeStream ((DecodeStream (st ++ c)).rest ++ e)).frames
        = (DecodeStream ((DecodeStream (p ++ c)).rest ++ e)).frames := by
      intro e
      have e1 := frames_append (st ++ c) e
      have e2 := h (c ++ e)
      have e4 := frames_append p (c ++ e)
      have e5 := frames_append (p ++ c) e
      have e6 := frames_append p c
      rw [List.append_assoc] at e1 e5
      rw [h c] at e1
      rw [e2] at e1
      rw [e6] at e5
      rw [e4] at e5
      rw [e1] at e5
      rw [List.append_assoc] at e5
      exact List.append_cancel_left (List.append_cancel_left e5)
    have hmain := ih (DecodeStream (st ++ c)).rest (p ++ c) hinv
    show (DecodeStream p).frames
        ++ ((DecodeStream (st ++ c)).frames
          ++ emitChunks (DecodeStream (st ++ c)).rest cs)
      = (DecodeStream (p ++ (c ++ cs.flatten))).frames
    rw [← List.append_assoc p c cs.flatten, ← hmain]
    rw [h c, frames_append p c]
    rw [List.append_assoc]

theorem getD_append_right {l l' : List Nat} {n : Nat} (h : l.length ≤ n) (d : Nat) :
    (l ++ l').getD n d = l'.getD (n - l.length) d := by
  unfold List.getD
  rw [List.get?_append_right h]

/-- Chunked feeding from an empty accumulator emits exactly the frames of the
single-call decode of the whole stream. -/
theorem emitChunks_flatten (chunks : List (List Nat)) :
    emitChunks [] chunks = (DecodeStream chunks.flatten).frames := by
  have h := emitChunks_spec chunks [] []
    (fun e => by rw [show (DecodeStream []).rest = [] from rfl])
  rw [show (DecodeStream []).frames = [] from rfl] at h
  simpa using h

/-- Decoding a well-formed wire frame at the head of the buffer: preamble,
declared length in range with `body.length = LEN - 1`, and a matching
checksum byte; one frame is emitted (identifier from the first four body
bytes, payload the remaining body bytes) and decoding continues on `rest`. -/
theorem DecodeStream_frame_cons (ln : Nat) (body rest : List Nat)
    (hln : 7 ≤ ln) (hln2 : ln ≤ 15) (hbody : body.length = ln - 1) :
    DecodeStream ((0x2D :: 0xD4 :: ln :: body) ++ ((0x2D + ln + body.sum) % 256) :: rest)
      = ⟨(⟨rd32 (body.getD 0 0) (body.getD 1 0) (body.getD 2 0) (body.getD 3 0) ||| CAN_EFF_FLAG,
            (body.drop 4).length,
            body.drop 4 ++ List.replicate (64 - (body.drop 4).length) 0⟩ : Frame)
          :: (DecodeStream rest).frames,
        (DecodeStream rest).rest, (DecodeStream rest).mal⟩ := by
  set cs := (0x2D + ln + body.sum) % 256 with hcs_def
  set W := (0x2D :: 0xD4 :: ln :: body) ++ cs :: rest with hW
  have hWlen : W.length = 3 + ln + rest.length := by
    rw [hW]
    simp [hbody]
    omega
  have hlen3 : ¬W.length < 3 := by omega
  have hfp : findPre W = some 0 := by
    rw [findPre_some_iff]
    refine ⟨?_, fun k hk => absurd hk (Nat.not_lt_zero k)⟩
    rw [hW]
    simp [occAt, List.get?]
  have h4 : ¬W.length < 4 := by omega
  have hg2 : W.getD 2 0 = ln := by
    rw [hW]
    rfl
  have hln_ok : ¬(W.getD 2 0 < 7 ∨ 15 < W.getD 2 0) := by
    rw [hg2]
    omega
  have hreq : ¬W.length < 3 + W.getD 2 0 := by
    rw [hg2]
    omega
  have hdrop3 : W.drop 3 = body ++ cs :: rest := by
    rw [hW]
    rfl
  have hsl : (W.drop 3).take (W.getD 2 0 - 1) = body := by
    rw [hdrop3, hg2]
    exact List.take_left' (by omega)
  have hat : W.getD (3 + W.getD 2 0 - 1) 0 = cs := by
    rw [hg2]
    have hsplit : W = (0x2D :: 0xD4 :: ln :: body) ++ cs :: rest := hW
    rw [hsplit, getD_append_right (by simp [hbody]; omega) 0]
    have : 3 + ln - 1 - (0x2D :: 0xD4 :: ln :: body).length = 0 := by
      simp [hbody]
      omega
    rw [this]
    rfl
  have hcs_ok : ¬((0x2D + W.getD 2 0 + ((W.drop 3).take (W.getD 2 0 - 1)).sum) % 256
      ≠ W.getD (3 + W.getD 2 0 - 1) 0) := by
    rw [hsl, hat, hg2]
    simp [hcs_def]
  rw [DecodeStream_emit (loopStep_frame hlen3 hfp h4 hln_ok hreq hcs_ok)]
  have hpay : (W.drop 7).take (ln - 5) = body.drop 4 := by
    have h7 : W.drop 7 = body.drop 4 ++ cs :: rest := by
      rw [hW]
      have : (0x2D :: 0xD4 :: ln :: body) ++ cs :: rest
          = 0x2D :: 0xD4 :: ln :: (body ++ cs :: rest) := by simp
      rw [this]
      simp [List.drop_append_of_le_length (show 4 ≤ body.length by omega)]
    rw [h7]
    exact List.take_left' (by rw [List.length_drop]; omega)
  have hblen : 6 ≤ body.length := by omega
  have hg3 : W.getD 3 0 = body.getD 0 0 := by
    rw [hW]
    show (body ++ cs :: rest).getD 0 0 = body.getD 0 0
    exact getD_append_left (by omega) 0
  have hg4 : W.getD 4 0 = body.getD 1 0 := by
    rw [hW]
    show (body ++ cs :: rest).getD 1 0 = body.getD 1 0
    exact getD_append_left (by omega) 0
  have hg5 : W.getD 5 0 = body.getD 2 0 := by
    rw [hW]
    show (body ++ cs :: rest).getD 2 0 = body.getD 2 0
    exact getD_append_left (by omega) 0
  have hg6 : W.getD 6 0 = body.getD 3 0 := by
    rw [hW]
    show (body ++ cs :: rest).getD 3 0 = body.getD 3 0
    exact getD_append_left (by omega) 0
  have hdropreq : W.drop (3 + ln) = rest := by
    rw [hW]
    have hsp : (0x2D :: 0xD4 :: ln :: body) ++ cs :: rest
        = ((0x2D :: 0xD4 :: ln :: body) ++ [cs]) ++ rest := by simp
    rw [hsp]
    exact List.drop_left' (by simp [hbody]; omega)
  rw [hg2, hg3, hg4, hg5, hg6, hpay, hdropreq]
  simp

/-- Decoding an encoded frame at the head of the buffer emits its round-trip
image `RoundFrame f` (not `f` itself: the decoder reads the two control
prefix bytes as part of the identifier) and continues on the remainder. -/
theorem DecodeStream_Encode (f : Frame) (rest : List Nat)
    (h2 : f.Len ≤ 8) (h3 : f.Len ≤ f.Data.length) :
    DecodeStream (Encode f ++ rest)
      = ⟨RoundFrame f :: (DecodeStream rest).frames,
        (DecodeStream rest).rest, (DecodeStream rest).mal⟩ := by
  set cid := if f.CANID &&& CAN_EFF_FLAG ≠ 0 then f.CANID &&& CAN_EFF_MASK else f.CANID
    with hcid
  set tab := 2 :: ((0x80 + f.Len) % 256) :: (be32 cid ++ f.Data.take f.Len) with htab_def
  have htake : (f.Data.take f.Len).length = f.Len := by
    rw [List.length_take]; omega
  have htab : tab.length = 6 + f.Len := by
    rw [htab_def]
    simp [be32, htake]
    omega
  have hlenB : (tab.length + 1) % 256 = 7 + f.Len := by
    rw [htab]
    omega
  have hEnc : Encode f ++ rest
      = (0x2D :: 0xD4 :: (7 + f.Len) :: tab) ++ ((0x2D + (7 + f.Len) + tab.sum) % 256) :: rest := by
    show canUARTSend tab ++ rest = _
    unfold canUARTSend
    rw [hlenB]
    have hsum : 7 + f.Len + 0x2D + tab.sum = 0x2D + (7 + f.Len) + tab.sum := by omega
    rw [hsum]
    simp
  rw [hEnc, DecodeStream_frame_cons (7 + f.Len) tab rest (by omega) (by omega)
    (by rw [htab]; omega)]
  have hb0 : tab.getD 0 0 = 2 := rfl
  have hb1 : tab.getD 1 0 = (0x80 + f.Len) % 256 := rfl
  have hb2 : tab.getD 2 0 = cid / 2 ^ 24 % 256 := by
    rw [htab_def]
    show (be32 cid ++ f.Data.take f.Len).getD 0 0 = _
    rw [getD_append_left (by simp [be32]) 0]
    rfl
  have hb3 : tab.getD 3 0 = cid / 2 ^ 16 % 256 := by
    rw [htab_def]
    show (be32 cid ++ f.Data.take f.Len).getD 1 0 = _
    rw [getD_append_left (by simp [be32]) 0]
    rfl
  have hd4 : tab.drop 4 = cid / 2 ^ 8 % 256 :: cid % 256 :: f.Data.take f.Len := by
    rw [htab_def]
    show (be32 cid ++ f.Data.take f.Len).drop 2 = _
    simp [be32]
  rw [hb0, hb1, hb2, hb3, hd4]
  rfl

/-- Decoding the concatenation of encoded frames in one call yields their
round-trip images, consumes everything, and counts no malformed frames. -/
theorem frames_Encode_flatten (fs : List Frame)
    (h : ∀ f ∈ fs, f.Len ≤ 8 ∧ f.Len ≤ f.Data.length) :
    DecodeStream ((fs.map Encode).flatten) = ⟨fs.map RoundFrame, [], 0⟩ := by
  induction fs with
  | nil => rfl
  | cons f fs ih =>
    obtain ⟨h2, h3⟩ := h f (by simp)
    have hfl : ((f :: fs).map Encode).flatten = Encode f ++ (fs.map Encode).flatten := by
      simp
    rw [hfl, DecodeStream_Encode f _ h2 h3, ih (fun g hg => h g (by simp [hg]))]
    simp

/-- Content of the accumulator is unchanged by `CompactBuffer` (both in the
compacting and the non-compacting branch). -/
theorem CompactBuffer_bytes (b : Buffer) : ((CompactBuffer b).1).bytes = b.bytes := by
  unfold CompactBuffer
  simp only []
  split
  · rfl
  · split
    · unfold Buffer.bytes
      simp
    · rfl

end Serial

/-! ## Claim theorems: serial streaming decode -/

/-- C9. Serial streaming decode is chunking-invariant: for every byte
sequence and every partition of it into successive chunks appended to the
accumulator between decoder invocations, the frames emitted across the calls
(those straddling a chunk boundary appearing once the boundary-completing
chunk arrives) equal the frames emitted when the whole sequence is presented
in a single call; and `CompactBuffer` never changes the unread buffer
contents, hence never changes the frames emitted. -/
theorem C9_serial_chunking_invariant :
    (∀ chunks : List (List Nat),
      Serial.emitChunks [] chunks = (Serial.DecodeStream chunks.flatten).frames) ∧
    (∀ b : Serial.Buffer,
      (Serial.CompactBuffer b).1.bytes = b.bytes ∧
      (Serial.DecodeStream (Serial.CompactBuffer b).1.bytes).frames
        = (Serial.DecodeStream b.bytes).frames) := by
  refine ⟨Serial.emitChunks_flatten, ?_⟩
  intro b
  refine ⟨Serial.CompactBuffer_bytes b, ?_⟩
  rw [Serial.CompactBuffer_bytes b]

/-- C1 (counterexample). The serial round-trip claimed by the spec fails on
the single frame with identifier 1 and empty payload: the decoder emits a
frame whose identifier contains the control-prefix bytes and whose payload
holds the two low identifier bytes, not the original frame. -/
theorem C1_serial_roundtrip_counterexample :
    (Serial.DecodeStream (Serial.Encode ⟨1, 0, List.replicate 64 0⟩)).frames
      ≠ [⟨1, 0, List.replicate 64 0⟩] ∧
    ((Serial.DecodeStream (Serial.Encode ⟨1, 0, List.replicate 64 0⟩)).frames.map
      Can.Frame.obs) ≠ [Can.Frame.obs ⟨1, 0, List.replicate 64 0⟩] ∧
    (Serial.DecodeStream (Serial.Encode ⟨1, 0, List.replicate 64 0⟩)).frames
      = [⟨0x82800000, 2, [0, 1] ++ List.replicate 62 0⟩] := by
  refine ⟨?_, ?_, ?_⟩ <;> decide

/-- C1 (amended). For every sequence of CAN frames with payload lengths 0–8,
feeding the concatenation of the per-frame serial encoder's outputs to the
streaming serial decoder — in one call or under any chunking — emits exactly
one frame per input frame, namely its round-trip image `RoundFrame`: length
`DLC+2`, payload the two low identifier bytes followed by the original
payload, identifier assembled from `[0x02, 0x80+DLC]` and the two high
identifier bytes, OR'd with the EFF flag. The original frames are not
recovered. -/
theorem C1_serial_roundtrip_amended (fs : List Can.Frame) (chunks : List (List Nat))
    (hc : chunks.flatten = (fs.map Serial.Encode).flatten)
    (h : ∀ f ∈ fs, f.Len ≤ 8 ∧ f.Len ≤ f.Data.length) :
    Serial.emitChunks [] chunks = fs.map Serial.RoundFrame := by
  rw [Serial.emitChunks_flatten, hc, Serial.frames_Encode_flatten fs h]

/-- Witness for the amended C1: one frame, its encoding split in two chunks. -/
theorem C1_serial_roundtrip_amended_witness :
    ([[0x2D, 0xD4, 0x07, 0x02, 0x80], [0, 0, 0, 1, 0xB7]] : List (List Nat)).flatten
      = ([(⟨1, 0, List.replicate 64 0⟩ : Can.Frame)].map Serial.Encode).flatten ∧
    (∀ f ∈ [(⟨1, 0, List.replicate 64 0⟩ : Can.Frame)], f.Len ≤ 8 ∧ f.Len ≤ f.Data.length) ∧
    Serial.emitChunks [] [[0x2D, 0xD4, 0x07, 0x02, 0x80], [0, 0, 0, 1, 0xB7]]
      = [(⟨1, 0, List.replicate 64 0⟩ : Can.Frame)].map Serial.RoundFrame :=
  ⟨by decide, by decide,
    C1_serial_roundtrip_amended [⟨1, 0, List.replicate 64 0⟩]
      [[0x2D, 0xD4, 0x07, 0x02, 0x80], [0, 0, 0, 1, 0xB7]] (by decide) (by decide)⟩

/-- C4 (counterexample). Feeding the spec's S4 bytes
`FF FF 2D D4 07 00 00 00 01 AA DF` emits no frame at all — in particular not
the claimed frame with identifier `1 | EFF`, length 1, payload `[0xAA]` —
because `LEN = 7` declares seven bytes after the length byte and only six
are present. -/
theorem C4_serial_resync_s4_counterexample :
    (Serial.DecodeStream [0xFF, 0xFF, 0x2D, 0xD4, 0x07, 0, 0, 0, 1, 0xAA, 0xDF]).frames = [] ∧
    (Serial.DecodeStream [0xFF, 0xFF, 0x2D, 0xD4, 0x07, 0, 0, 0, 1, 0xAA, 0xDF]).frames
      ≠ [⟨0x80000001, 1, [0xAA] ++ List.replicate 63 0⟩] := by
  refine ⟨?_, ?_⟩ <;> decide

/-- C4 (amended). Feeding `FF FF 2D D4 07 00 00 00 01 AA DF` emits no frame
and does not increment the malformed counter: the leading `FF FF` bytes are
discarded silently during preamble alignment, and the remaining nine bytes
stay buffered awaiting the tenth byte of the incomplete `LEN = 7` frame. -/
theorem C4_serial_resync_s4_amended :
    Serial.DecodeStream [0xFF, 0xFF, 0x2D, 0xD4, 0x07, 0, 0, 0, 1, 0xAA, 0xDF]
      = ⟨[], [0x2D, 0xD4, 0x07, 0, 0, 0, 1, 0xAA, 0xDF], 0⟩ := by
  decide

/-- C3. The serial decoder accepts declared LEN in `[7,15]` and emits frames
with `LEN = 4 + DLC + 1` (so `DLC = LEN - 5`), but this makes DLC range over
2..10, not 0..8 as the claim and the decoder's own comments state: a valid
`LEN = 15` wire frame is emitted with payload length 10 (> 8); a valid
`LEN = 7` frame is emitted with payload length 2 (not 0); and `LEN = 5` —
the value `LEN = 4 + DLC + 1` assigns to `DLC = 0` — is rejected as
malformed. -/
theorem C3_serial_len_dlc_divergence :
    (Serial.DecodeStream
        [0x2D, 0xD4, 0x0F, 0, 0, 0, 1, 1, 2, 3, 4, 5, 6, 7, 8, 9, 10, 0x74]).frames
      = [⟨0x80000001, 10, [1, 2, 3, 4, 5, 6, 7, 8, 9, 10] ++ List.replicate 54 0⟩] ∧
    (Serial.DecodeStream [0x2D, 0xD4, 0x07, 0x02, 0x80, 0, 0, 0, 1, 0xB7]).frames
      = [⟨0x82800000, 2, [0, 1] ++ List.replicate 62 0⟩] ∧
    (Serial.DecodeStream [0x2D, 0xD4, 0x05, 0, 0, 0, 1, 0x33]).mal = 1 ∧
    (Serial.DecodeStream [0x2D, 0xD4, 0x05, 0, 0, 0, 1, 0x33]).frames = [] := by
  refine ⟨?_, ?_, ?_, ?_⟩ <;> decide

/-! ## Hub broadcast lemmas -/

namespace Hub

theorem deliverAll_fst (policy : Policy) (fr : Can.Frame) :
    ∀ cs : List Client, (deliverAll policy fr cs).1 = cs.map (deliver policy fr) := by
  intro cs
  induction cs with
  | nil => rfl
  | cons c cs ih =>
    by_cases hc : c.out.length < c.cap
    · simp [deliverAll, deliver, hc, ih]
    · cases policy with
      | drop => simp [deliverAll, deliver, hc, ih]
      | kick => simp [deliverAll, deliver, hc, ih]

theorem deliverAll_counts (policy : Policy) (fr : Can.Frame) :
    ∀ cs : List Client, (deliverAll policy fr cs).2
      = (if policy = .drop then fullCount cs else 0,
         if policy = .kick then fullCount cs else 0) := by
  intro cs
  induction cs with
  | nil => cases policy <;> simp [deliverAll, fullCount]
  | cons c cs ih =>
    by_cases hc : c.out.length < c.cap
    · have hd : decide (c.cap ≤ c.out.length) = false := by
        simp
        omega
      have hf : fullCount (c :: cs) = fullCount cs := by
        simp [fullCount, List.filter, hd]
      cases policy <;> simp [deliverAll, hc, ih, hf]
    · have hd : decide (c.cap ≤ c.out.length) = true := by
        simp
        omega
      have hf : fullCount (c :: cs) = fullCount cs + 1 := by
        simp [fullCount, List.filter, hd]
      cases policy <;> simp [deliverAll, hc, ih, hf]

end Hub

/-- C7. Hub broadcast post-state: after `Broadcast`, the fanout gauge equals
the number of registered clients at the snapshot; each client is treated in
exactly one way — queue gained the frame when below capacity, else under the
Drop policy the client is left untouched (and stays registered), else under
the Kick policy its closure signal is set and its queue is unchanged; the
dropped counter grows by the number of full clients under Drop and the
kicked counter by the number of full clients under Kick. -/
theorem C7_hub_broadcast_poststate (s : Hub.HubSt) (fr : Can.Frame) :
    (Hub.Broadcast s fr).fanout = s.clients.length ∧
    (Hub.Broadcast s fr).clients = s.clients.map (Hub.deliver s.policy fr) ∧
    (∀ c ∈ s.clients,
      (c.out.length < c.cap ∧
        Hub.deliver s.policy fr c = { c with out := c.out ++ [fr] }) ∨
      (c.cap ≤ c.out.length ∧ s.policy = .drop ∧ Hub.deliver s.policy fr c = c) ∨
      (c.cap ≤ c.out.length ∧ s.policy = .kick ∧
        (Hub.deliver s.policy fr c).closedSig = true ∧
        (Hub.deliver s.policy fr c).out = c.out)) ∧
    (Hub.Broadcast s fr).dropped
      = s.dropped + (if s.policy = .drop then Hub.fullCount s.clients else 0) ∧
    (Hub.Broadcast s fr).kicked
      = s.kicked + (if s.policy = .kick then Hub.fullCount s.clients else 0) := by
  refine ⟨rfl, ?_, ?_, ?_, ?_⟩
  · show (Hub.deliverAll s.policy fr s.clients).1 = _
    exact Hub.deliverAll_fst s.policy fr s.clients
  · intro c _
    by_cases h : c.out.length < c.cap
    · exact Or.inl ⟨h, by simp [Hub.deliver, h]⟩
    · cases hp : s.policy with
      | drop => exact Or.inr (Or.inl ⟨by omega, rfl, by simp [Hub.deliver, h]⟩)
      | kick =>
        exact Or.inr (Or.inr ⟨by omega, rfl, by simp [Hub.deliver, h], by simp [Hub.deliver, h]⟩)
  · show s.dropped + (Hub.deliverAll s.policy fr s.clients).2.1 = _
    rw [Hub.deliverAll_counts s.policy fr s.clients]
  · show s.kicked + (Hub.deliverAll s.policy fr s.clients).2.2 = _
    rw [Hub.deliverAll_counts s.policy fr s.clients]

/-! ## AsyncTx transition-system lemmas -/

namespace Tx

theorem countOk_append (rs : List TxRes) (r : TxRes) :
    countOk (rs ++ [r]) = countOk rs + (if r = .okEnq then 1 else 0) := by
  by_cases h : r = .okEnq <;> simp [countOk, List.filter_append, List.filter, h]

theorem initTx_Inv (dev : Can.Frame → Bool) (cap : Nat) : Inv dev (initTx cap) := by
  refine ⟨rfl, rfl, fun _ => rfl, fun h => by simp [initTx] at h⟩

theorem step_Inv {dev : Can.Frame → Bool} {s s2 : TxSt} {a : Act}
    (hi : Inv dev s) (hs : step dev s a = some s2) : Inv dev s2 := by
  obtain ⟨h1, h2, h3, h4⟩ := hi
  cases a with
  | send f =>
    simp only [step] at hs
    split at hs
    · obtain rfl := Option.some.inj hs
      refine ⟨h1, ?_, h3, h4⟩
      simp [countOk_append, h2]
    · split at hs
      · obtain rfl := Option.some.inj hs
        refine ⟨h1, ?_, h3, h4⟩
        simp [countOk_append]
        omega
      · obtain rfl := Option.some.inj hs
        refine ⟨h1, ?_, h3, h4⟩
        simp [countOk_append, h2]
  | closeBegin =>
    simp only [step] at hs
    split at hs
    · obtain rfl := Option.some.inj hs
      exact ⟨h1, h2, h3, h4⟩
    · rename_i hnc
      obtain rfl := Option.some.inj hs
      refine ⟨h1, h2, h3, fun hcr => ?_⟩
      simp only at hcr
      obtain ⟨hw, hcf⟩ := h4 hcr
      exact ⟨hw, rfl⟩
  | workTake =>
    simp only [step] at hs
    split at hs
    · cases hs
    · rename_i f rest hq
      split at hs
      · cases hs
      · split at hs
        · obtain rfl := Option.some.inj hs
          refine ⟨by simp only []; omega, ?_, h3, h4⟩
          simp only
          rw [hq] at h2
          simp at h2
          omega
        · rename_i hdf
          obtain rfl := Option.some.inj hs
          refine ⟨by simp [h1]; omega, ?_, ?_, h4⟩
          · simp only
            rw [hq] at h2
            simp at h2
            omega
          · intro hall
            exact absurd (hall f) (by simp [hdf])
  | workCtxDone =>
    simp only [step] at hs
    split at hs
    · obtain rfl := Option.some.inj hs
      exact ⟨h1, h2, h3, fun hcr => ⟨rfl, (h4 hcr).2⟩⟩
    · cases hs
  | workChanClosed =>
    simp only [step] at hs
    split at hs
    · obtain rfl := Option.some.inj hs
      exact ⟨h1, h2, h3, fun hcr => ⟨rfl, (h4 hcr).2⟩⟩
    · cases hs
  | closeFinish =>
    simp only [step] at hs
    split at hs
    · obtain rfl := Option.some.inj hs
      exact ⟨h1, h2, h3, h4⟩
    · split at hs
      · rename_i hflags
        obtain rfl := Option.some.inj hs
        exact ⟨h1, h2, h3, fun _ => ⟨hflags.2.2, hflags.1⟩⟩
      · cases hs

theorem runTx_Inv {dev : Can.Frame → Bool} :
    ∀ (acts : List Act) {s s2 : TxSt}, Inv dev s → runTx dev s acts = some s2 → Inv dev s2 := by
  intro acts
  induction acts with
  | nil =>
    intro s s2 hi h
    obtain rfl := Option.some.inj h
    exact hi
  | cons a acts ih =>
    intro s s2 hi h
    unfold runTx at h
    split at h
    · cases h
    · rename_i s3 hstep
      exact ih (step_Inv hi hstep) h

theorem step_frozen {dev : Can.Frame → Bool} {s s2 : TxSt} {a : Act}
    (hw : s.workerExited = true) (hs : step dev s a = some s2) :
    s2.devWrites = s.devWrites ∧ s2.afterCount = s.afterCount ∧ s2.workerExited = true := by
  cases a with
  | send f =>
    simp only [step] at hs
    split at hs
    · obtain rfl := Option.some.inj hs; exact ⟨rfl, rfl, hw⟩
    · split at hs
      · obtain rfl := Option.some.inj hs; exact ⟨rfl, rfl, hw⟩
      · obtain rfl := Option.some.inj hs; exact ⟨rfl, rfl, hw⟩
  | closeBegin =>
    simp only [step] at hs
    split at hs
    · obtain rfl := Option.some.inj hs; exact ⟨rfl, rfl, hw⟩
    · obtain rfl := Option.some.inj hs; exact ⟨rfl, rfl, hw⟩
  | workTake =>
    simp only [step] at hs
    split at hs
    · cases hs
    · split at hs
      · cases hs
      · rename_i hnw
        exact absurd hw (by simpa using hnw)
  | workCtxDone =>
    simp only [step] at hs
    split at hs
    · rename_i hcond
      exact absurd hw (by simpa using hcond.2)
    · cases hs
  | workChanClosed =>
    simp only [step] at hs
    split at hs
    · rename_i hcond
      exact absurd hw (by simpa using hcond.2.2)
    · cases hs
  | closeFinish =>
    simp only [step] at hs
    split at hs
    · obtain rfl := Option.some.inj hs; exact ⟨rfl, rfl, hw⟩
    · split at hs
      · obtain rfl := Option.some.inj hs; exact ⟨rfl, rfl, hw⟩
      · cases hs

theorem runTx_frozen {dev : Can.Frame → Bool} :
    ∀ (acts : List Act) {s s2 : TxSt}, s.workerExited = true →
      runTx dev s acts = some s2 →
      s2.devWrites = s.devWrites ∧ s2.afterCount = s.afterCount := by
  intro acts
  induction acts with
  | nil =>
    intro s s2 hw h
    obtain rfl := Option.some.inj h
    exact ⟨rfl, rfl⟩
  | cons a acts ih =>
    intro s s2 hw h
    unfold runTx at h
    split at h
    · cases h
    · rename_i s3 hstep
      obtain ⟨hd, ha, hw3⟩ := step_frozen hw hstep
      obtain ⟨hd2, ha2⟩ := ih hw3 h
      exact ⟨by rw [hd2, hd], by rw [ha2, ha]⟩

theorem step_closed_persist {dev : Can.Frame → Bool} {s s2 : TxSt} {a : Act}
    (hc : s.closedFlag = true) (hs : step dev s a = some s2) : s2.closedFlag = true := by
  cases a with
  | send f =>
    simp only [step] at hs
    rw [if_pos hc] at hs
    obtain rfl := Option.some.inj hs
    exact hc
  | closeBegin =>
    simp only [step] at hs
    rw [if_pos hc] at hs
    obtain rfl := Option.some.inj hs
    exact hc
  | workTake =>
    simp only [step] at hs
    split at hs
    · cases hs
    · split at hs
      · cases hs
      · split at hs
        · obtain rfl := Option.some.inj hs; exact hc
        · obtain rfl := Option.some.inj hs; exact hc
  | workCtxDone =>
    simp only [step] at hs
    split at hs
    · obtain rfl := Option.some.inj hs; exact hc
    · cases hs
  | workChanClosed =>
    simp only [step] at hs
    split at hs
    · obtain rfl := Option.some.inj hs; exact hc
    · cases hs
  | closeFinish =>
    simp only [step] at hs
    split at hs
    · obtain rfl := Option.some.inj hs; exact hc
    · split at hs
      · obtain rfl := Option.some.inj hs; exact hc
      · cases hs

theorem runTx_closed_persist {dev : Can.Frame → Bool} :
    ∀ (acts : List Act) {s s2 : TxSt}, s.closedFlag = true →
      runTx dev s acts = some s2 → s2.closedFlag = true := by
  intro acts
  induction acts with
  | nil =>
    intro s s2 hc h
    obtain rfl := Option.some.inj h
    exact hc
  | cons a acts ih =>
    intro s s2 hc h
    unfold runTx at h
    split at h
    · cases h
    · rename_i s3 hstep
      exact ih (step_closed_persist hc hstep) h

end Tx

/-! ## Claim theorems: AsyncTx -/

/-- C6 (counterexample). An execution in which one `SendFrame` succeeds, the
device always succeeds, and `Close` is then called, yet the worker exits
through the cancelled-context `select` arm before taking the queued frame:
`Close` returns with the frame still buffered, zero `OnAfter` calls, and
zero device writes — refuting "exactly N `on_after` calls occur before
`close` returns" for N = 1. -/
theorem C6_asynctx_drain_counterexample :
    Tx.runTx (fun _ : Can.Frame => true) (Tx.initTx 4)
      [.send ⟨1, 0, []⟩, .closeBegin, .workCtxDone, .closeFinish]
      = some ⟨[⟨1, 0, []⟩], 4, true, true, true, true, true, 0, 0, 0, [.okEnq]⟩ ∧
    Tx.countOk [Tx.TxRes.okEnq] = 1 := by
  refine ⟨?_, ?_⟩ <;> decide

/-- C6 (amended). In every execution of the AsyncTx system, at most N
`on_after` invocations occur, where N counts the successful `send_frame`
calls; with an always-succeeding device, `on_after` fires exactly once per
device write; and after `close` has returned, no further device writes or
`on_after` calls occur in any continuation. Draining is not guaranteed: the
worker's `select` may observe the cancelled context and exit while frames
remain buffered. -/
theorem C6_asynctx_close_amended (dev : Can.Frame → Bool) (cap : Nat)
    (acts : List Tx.Act) (s : Tx.TxSt)
    (h : Tx.runTx dev (Tx.initTx cap) acts = some s) :
    (s.afterCount ≤ Tx.countOk s.results) ∧
    ((∀ fr, dev fr = true) → s.afterCount = s.devWrites) ∧
    (s.closeReturned = true → ∀ (acts2 : List Tx.Act) (s2 : Tx.TxSt),
      Tx.runTx dev s acts2 = some s2 →
      s2.devWrites = s.devWrites ∧ s2.afterCount = s.afterCount) := by
  obtain ⟨h1, h2, h3, h4⟩ := Tx.runTx_Inv acts (Tx.initTx_Inv dev cap) h
  refine ⟨by omega, fun hd => by have := h3 hd; omega, fun hcr acts2 s2 hrun2 => ?_⟩
  exact Tx.runTx_frozen acts2 (h4 hcr).1 hrun2

/-- Witness for the amended C6: a fully drained execution — one send, one
worker iteration, then close — followed by an empty continuation. -/
theorem C6_asynctx_close_amended_witness :
    Tx.runTx (fun _ : Can.Frame => true) (Tx.initTx 1)
      [.send ⟨1, 0, []⟩, .workTake, .closeBegin, .workChanClosed, .closeFinish]
      = some ⟨[], 1, true, true, true, true, true, 1, 1, 0, [.okEnq]⟩ ∧
    ((⟨[], 1, true, true, true, true, true, 1, 1, 0, [.okEnq]⟩ : Tx.TxSt).afterCount
      ≤ Tx.countOk (⟨[], 1, true, true, true, true, true, 1, 1, 0, [.okEnq]⟩ : Tx.TxSt).results) ∧
    ((∀ fr : Can.Frame, (fun _ : Can.Frame => true) fr = true) →
      (⟨[], 1, true, true, true, true, true, 1, 1, 0, [.okEnq]⟩ : Tx.TxSt).afterCount
        = (⟨[], 1, true, true, true, true, true, 1, 1, 0, [.okEnq]⟩ : Tx.TxSt).devWrites) ∧
    ((⟨[], 1, true, true, true, true, true, 1, 1, 0, [.okEnq]⟩ : Tx.TxSt).closeReturned = true →
      ∀ (acts2 : List Tx.Act) (s2 : Tx.TxSt),
        Tx.runTx (fun _ : Can.Frame => true)
          (⟨[], 1, true, true, true, true, true, 1, 1, 0, [.okEnq]⟩ : Tx.TxSt) acts2 = some s2 →
        s2.devWrites
          = (⟨[], 1, true, true, true, true, true, 1, 1, 0, [.okEnq]⟩ : Tx.TxSt).devWrites ∧
        s2.afterCount
          = (⟨[], 1, true, true, true, true, true, 1, 1, 0, [.okEnq]⟩ : Tx.TxSt).afterCount) :=
  ⟨by decide,
    C6_asynctx_close_amended (fun _ : Can.Frame => true) 1
      [.send ⟨1, 0, []⟩, .workTake, .closeBegin, .workChanClosed, .closeFinish]
      ⟨[], 1, true, true, true, true, true, 1, 1, 0, [.okEnq]⟩ (by decide)⟩

/-- C8. AsyncTx closed sentinel: from any reachable state in which the
closed flag is set (it is set by `Close` before anything else and is never
cleared), every subsequent `SendFrame` — after any further steps — returns
the `ErrAsyncTxClosed` sentinel and changes nothing but the result log: the
frame is not enqueued and the device send function is not invoked for it. -/
theorem C8_asynctx_closed_sentinel (dev : Can.Frame → Bool) (cap : Nat)
    (acts : List Tx.Act) (s : Tx.TxSt)
    (h : Tx.runTx dev (Tx.initTx cap) acts = some s) (hc : s.closedFlag = true) :
    ∀ (acts2 : List Tx.Act) (s2 : Tx.TxSt) (f : Can.Frame),
      Tx.runTx dev s acts2 = some s2 →
      s2.closedFlag = true ∧
      Tx.step dev s2 (.send f) = some { s2 with results := s2.results ++ [.closedErr] } := by
  intro acts2 s2 f hrun2
  have hc2 := Tx.runTx_closed_persist acts2 hc hrun2
  refine ⟨hc2, ?_⟩
  simp only [Tx.step]
  rw [if_pos hc2]

/-- Witness for C8: close immediately, then send. -/
theorem C8_asynctx_closed_sentinel_witness :
    Tx.runTx (fun _ : Can.Frame => true) (Tx.initTx 1) [.closeBegin]
      = some ⟨[], 1, true, true, true, false, false, 0, 0, 0, []⟩ ∧
    (⟨[], 1, true, true, true, false, false, 0, 0, 0, []⟩ : Tx.TxSt).closedFlag = true ∧
    ((⟨[], 1, true, true, true, false, false, 0, 0, 0, []⟩ : Tx.TxSt).closedFlag = true ∧
      Tx.step (fun _ : Can.Frame => true) (⟨[], 1, true, true, true, false, false, 0, 0, 0, []⟩ : Tx.TxSt)
          (.send ⟨1, 0, []⟩)
        = some ⟨[], 1, true, true, true, false, false, 0, 0, 0, [.closedErr]⟩) :=
  ⟨by decide, by decide,
    C8_asynctx_closed_sentinel (fun _ : Can.Frame => true) 1 [.closeBegin]
      ⟨[], 1, true, true, true, false, false, 0, 0, 0, []⟩ (by decide) (by decide)
      [] ⟨[], 1, true, true, true, false, false, 0, 0, 0, []⟩ ⟨1, 0, []⟩ (by decide)⟩
